import Mathlib

set_option autoImplicit false

/-!
Shallow embedding of the distributed conjugate-gradients solver of
`src/LinearSolver/ConjugateGradients.cpp` together with the ownership
predicate of `src/Mesh/CommMap.cpp`.

Modelling conventions:
* `tk::real` (IEEE double) is modelled by `ℚ`; the floating-point literal
  `1.0e-14` is modelled by the rational `1 / 10^14`.
* chare ids (`int`) are modelled by `ℤ`, global mesh node ids
  (`std::size_t`) by `ℕ`.
* `std::sqrt` has no exact rational counterpart, so solver steps that take a
  square root are parametrised by a function `sq : ℚ → ℚ` standing for the
  runtime's square-root routine.
* associative containers (`NodeCommMap`, `m_lid`, the communication
  accumulators `m_rc`/`m_qc`) are modelled by association lists.
* `std::vector::operator[]` reads at a possibly out-of-bounds index are
  modelled by `List.getD _ _ 0`; the in-bounds question itself is analysed
  separately (see `dotGidAccesses`).
-/

/-- `tk::NodeCommMap` (its header is not among the sources; the spec
describes it as a table mapping a neighbor partition id to the set of global
ids shared with that neighbor): association list from neighbor chare id to
the global node ids shared with that neighbor. -/

abbrev NodeCommMap : Type := List (Int × List Nat)

/-- `tk::slave` from `src/Mesh/CommMap.cpp`: the node is declared a slave for
`chare` if some entry `s` of the comm map contains the node in its shared set
and has `s.first > chare`. -/

def slave (map : NodeCommMap) (node : Nat) (chare : Int) : Bool :=
  map.any fun s => s.2.contains node && decide (chare < s.1)

/-- Local partial of `ConjugateGradients::dot`: accumulate `a[i]*b[i]` over
`i ∈ [0, a.size())`, skipping every index whose global id `m_gid[i]` is a
slave for this chare.  The reduction then sums these partials over all
chares. -/

def dot (map : NodeCommMap) (gid : List Nat) (chare : Int) (a b : List ℚ) : ℚ :=
  (List.range a.length).foldl
    (fun d i =>
      if !(slave map (gid.getD i 0) chare) then d + a.getD i 0 * b.getD i 0 else d)
    0

/-- Modelled from the spec: the ownership rule of §3 as the spec words it —
a local id is excluded from a dot partial iff its global id is also held by
some other partition with a *lower* partition id (owner = lowest id). -/

def lowestRuleExcluded (map : NodeCommMap) (node : Nat) (chare : Int) : Bool :=
  map.any fun s => s.2.contains node && decide (s.1 < chare)

/-- Modelled from the spec: the dot-product partial the spec's §4.4 rule
(`owner = lowest id`) would compute. -/

def dotLowestRule (map : NodeCommMap) (gid : List Nat) (chare : Int)
    (a b : List ℚ) : ℚ :=
  (List.range a.length).foldl
    (fun d i =>
      if !(lowestRuleExcluded map (gid.getD i 0) chare) then
        d + a.getD i 0 * b.getD i 0
      else d)
    0

/-- The loop indices at which `ConjugateGradients::dot` reads `m_gid`:
one read `m_gid[i]` per `i ∈ [0, a.size())`. -/

def dotGidAccesses (a : List ℚ) : List Nat := List.range a.length

/-- Modelled from the spec: the interface of the local sparse matrix
(`CSR.hpp` is not among the sources; the spec specifies the accessors
`rsize()` and `Ncomp()` and the local product `mult(in,out)`, treating the
matrix itself as an opaque local row-block).  `multFn` stands for `mult`:
it computes the local partition's contribution `y = A·x_local`. -/

structure CSR where
  rsize : Nat
  Ncomp : Nat
  multFn : List ℚ → List ℚ

/-- Point update of a `std::unordered_map<std::size_t,std::size_t>` viewed
as a partial function (`m_lid[g] = v`). -/

def fnInsert (m : Nat → Option Nat) (k v : Nat) : Nat → Option Nat :=
  fun g => if g = k then some v else m g

/-- Lookup in an association list of caller-supplied `(global, local)`
pairs, modelling the contents of the caller's `lid` map. -/

def mapLookup (m : List (Nat × Nat)) (k : Nat) : Option Nat :=
  (m.find? fun p => p.1 == k).map Prod.snd

/-- The member state of a `ConjugateGradients` chare
(`ConjugateGradients.hpp` lists the members; they are read off the
constructor's initialisation list in the translation unit). -/

structure CGState where
  A : CSR
  m_x : List ℚ
  m_b : List ℚ
  m_gid : List Nat
  m_lid : Nat → Option Nat
  m_nodeCommMap : NodeCommMap
  m_r : List ℚ
  m_rc : List (Nat × List ℚ)
  m_nr : Nat
  m_p : List ℚ
  m_q : List ℚ
  m_qc : List (Nat × List ℚ)
  m_nq : Nat
  m_normb : ℚ
  m_it : Nat
  m_maxit : Nat
  m_rho : ℚ
  m_rho0 : ℚ
  m_alpha : ℚ
  m_tol : ℚ

namespace ConjugateGradients

/-- `ConjugateGradients::ConjugateGradients`: members are initialised from
the arguments (`m_r`, `m_p`, `m_q` are zero vectors of length `rsize()`,
the scalars start at zero), then, when `gid`, `lid` or `nodecommmap` is
empty, `m_gid` is resized to `x.size()` and filled with `iota` and the
identity entries `m_lid[g] = g` are written for every `g` in `m_gid`. -/

def construct (A : CSR) (x b : List ℚ) (gid : List Nat)
    (lid : List (Nat × Nat)) (nodecommmap : NodeCommMap) : CGState :=
  let serial := gid.isEmpty || lid.isEmpty || nodecommmap.isEmpty
  let gid' := if serial then List.range x.length else gid
  let lid' :=
    if serial then
      (List.range x.length).foldl (fun m g => fnInsert m g g) (mapLookup lid)
    else mapLookup lid
  { A := A, m_x := x, m_b := b, m_gid := gid', m_lid := lid',
    m_nodeCommMap := nodecommmap,
    m_r := List.replicate A.rsize 0, m_rc := [], m_nr := 0,
    m_p := List.replicate A.rsize 0, m_q := List.replicate A.rsize 0,
    m_qc := [], m_nq := 0,
    m_normb := 0, m_it := 0, m_maxit := 0, m_rho := 0, m_rho0 := 0,
    m_alpha := 0, m_tol := 0 }

end ConjugateGradients

/-- Modelled from the spec: elementwise `operator+=` on value vectors (its
header is not among the sources; §4.3 step 4 specifies accumulation by
summation), extending to the longer length with zeros. -/

def vecAdd (v w : List ℚ) : List ℚ :=
  (List.range (max v.length w.length)).map fun i => v.getD i 0 + w.getD i 0

/-- `m_rc[g] += v`: insert-or-accumulate into an accumulator keyed by
global id (`std::unordered_map::operator[]` default-constructs an empty
vector on first access, and `vecAdd [] v = v`). -/

def rcAdd (m : List (Nat × List ℚ)) (g : Nat) (v : List ℚ) :
    List (Nat × List ℚ) :=
  if m.any fun p => p.1 == g then
    m.map fun p => if p.1 == g then (p.1, vecAdd p.2 v) else p
  else m ++ [(g, v)]

/-- Fold a list of `(global id, partial contribution)` pairs into an
accumulator: the receive loop of `comres`/`comq`. -/

def accPairs (m : List (Nat × List ℚ)) (pairs : List (Nat × List ℚ)) :
    List (Nat × List ℚ) :=
  pairs.foldl (fun t p => rcAdd t p.1 p.2) m

/-- Accumulated vector currently stored at a key (empty if absent). -/

def accAt (m : List (Nat × List ℚ)) (g : Nat) : List ℚ :=
  ((m.find? fun p => p.1 == g).map Prod.snd).getD []

/-- The component loop `for c < dof: v[base+c] += w[c]`; `List.set` ignores
out-of-range writes (in the code such a write would be out of bounds). -/

def addAt (v : List ℚ) (base dof : Nat) (w : List ℚ) : List ℚ :=
  (List.range dof).foldl
    (fun u c => u.set (base + c) (u.getD (base + c) 0 + w.getD c 0)) v

/-- The combine loops of `initres`/`q`: add every accumulated boundary
contribution into the local vector at local index `lid(gid)·dof`. -/

def applyAcc (lid : Nat → Option Nat) (dof : Nat) (acc : List (Nat × List ℚ))
    (v : List ℚ) : List ℚ :=
  acc.foldl (fun u p => addAt u ((lid p.1).getD 0 * dof) dof p.2) v

namespace ConjugateGradients

/-- `ConjugateGradients::residual`: own contribution `m_r = A·x`; the sends
of boundary slices of `m_r` to fellow chares are received as `comres`
messages on the other side. -/

def residual (s : CGState) : CGState := { s with m_r := s.A.multFn s.m_x }

/-- `ConjugateGradients::comres`: accumulate an incoming boundary
contribution to `A·x` into `m_rc` and count it; when `++m_nr` reaches
`|m_nodeCommMap|`, reset the counter and complete the round (`true`). -/

def comres (s : CGState) (gid : List Nat) (rc : List (List ℚ)) :
    CGState × Bool :=
  let rc' := accPairs s.m_rc (gid.zip rc)
  if s.m_nr + 1 = s.m_nodeCommMap.length then
    ({ s with m_rc := rc', m_nr := 0 }, true)
  else
    ({ s with m_rc := rc', m_nr := s.m_nr + 1 }, false)

/-- `ConjugateGradients::normb`: store `m_normb = sqrt(n)` of the reduced
`(b,b)`. -/

def normb (sq : ℚ → ℚ) (s : CGState) (n : ℚ) : CGState :=
  { s with m_normb := sq n }

/-- `ConjugateGradients::initres`: fold the accumulated boundary
contributions into `m_r`, destroy the accumulator, negate, add `b`
(`r = b - A·x`), and send `m_normb` to the init continuation (second
component). -/

def initres (s : CGState) : CGState × ℚ :=
  let r1 := applyAcc s.m_lid s.A.Ncomp s.m_rc s.m_r
  let r2 := r1.map fun t => t * (-1)
  let r3 := vecAdd r2 s.m_b
  ({ s with m_r := r3, m_rc := [] }, s.m_normb)

/-- `ConjugateGradients::solve`: store `maxit` and `tol`, reset the
iteration counter, and start the first iteration (`next()`). -/

def solve (s : CGState) (maxit : Nat) (tol : ℚ) : CGState :=
  { s with m_maxit := maxit, m_tol := tol, m_it := 0 }

/-- `ConjugateGradients::rho`: receive the reduced `ρ = (r,r)`; on the
first iteration force `α = 0`, otherwise `α = ρ/ρ₀`; save `ρ₀ = ρ` and
form the search direction `p = r + α p`. -/

def rho (s : CGState) (r : ℚ) : CGState :=
  let alpha := if s.m_it = 0 then 0 else r / s.m_rho0
  let p' := (List.range s.m_p.length).map fun i =>
    s.m_r.getD i 0 + alpha * s.m_p.getD i 0
  { s with m_rho := r, m_alpha := alpha, m_rho0 := r, m_p := p' }

/-- `ConjugateGradients::qAp`: own contribution `m_q = A·p`. -/

def qAp (s : CGState) : CGState := { s with m_q := s.A.multFn s.m_p }

/-- `ConjugateGradients::comq`: accumulate an incoming boundary
contribution to `A·p` into `m_qc` and count it; when `++m_nq` reaches
`|m_nodeCommMap|`, reset the counter and complete the round (`true`). -/

def comq (s : CGState) (gid : List Nat) (qc : List (List ℚ)) :
    CGState × Bool :=
  let qc' := accPairs s.m_qc (gid.zip qc)
  if s.m_nq + 1 = s.m_nodeCommMap.length then
    ({ s with m_qc := qc', m_nq := 0 }, true)
  else
    ({ s with m_qc := qc', m_nq := s.m_nq + 1 }, false)

/-- `ConjugateGradients::q`: fold the accumulated boundary contributions
into `m_q` and destroy the accumulator, finishing `q = A·p`. -/

def q (s : CGState) : CGState :=
  { s with m_q := applyAcc s.m_lid s.A.Ncomp s.m_qc s.m_q, m_qc := [] }

/-- The fatal outcome of a failed breakdown assertion. -/

inductive Failure where
  | breakdown
deriving DecidableEq

/-- `ConjugateGradients::pq`: `Assert( d > 1.0e-14, "..." )`, then
`α = ρ/(p,q)` and `r = r - α q`.  Modelled from the spec for the missing
`Exception.hpp`: a failed `Assert` fails fatally and aborts the solve (§7:
breakdown is fatal, not retried, never silently swallowed). -/

def pq (s : CGState) (d : ℚ) : Except Failure CGState :=
  if d > 1 / 10 ^ 14 then
    let alpha := s.m_rho / d
    let r' := (List.range s.m_r.length).map fun i =>
      s.m_r.getD i 0 - alpha * s.m_q.getD i 0
    Except.ok { s with m_alpha := alpha, m_r := r' }
  else Except.error Failure.breakdown

/-- `ConjugateGradients::normres`: receive the reduced `(r,r)`; advance
`x = x + α p`, increment the iteration counter; continue with another
iteration (`none`) iff `it < maxit` and `norm > tol·‖b‖`, otherwise send
the final norm to the solve continuation (`some norm`). -/

def normres (sq : ℚ → ℚ) (s : CGState) (r : ℚ) : CGState × Option ℚ :=
  let norm := sq r
  let x' := (List.range s.m_x.length).map fun i =>
    s.m_x.getD i 0 + s.m_alpha * s.m_p.getD i 0
  let s' := { s with m_x := x', m_it := s.m_it + 1 }
  if s.m_it + 1 < s.m_maxit ∧ norm > s.m_tol * s.m_normb then (s', none)
  else (s', some norm)

end ConjugateGradients

/-- A small concrete solver state used to instantiate theorems. -/

def exSt : CGState :=
  { A := ⟨1, 1, fun v => v⟩, m_x := [0], m_b := [1], m_gid := [0],
    m_lid := fun g => if g = 0 then some 0 else none, m_nodeCommMap := [],
    m_r := [3], m_rc := [], m_nr := 0, m_p := [2], m_q := [0], m_qc := [],
    m_nq := 0, m_normb := 1, m_it := 0, m_maxit := 5, m_rho := 4,
    m_rho0 := 2, m_alpha := 0, m_tol := 1 / 10 }

/-- `exSt` in a later iteration (`m_it ≠ 0`). -/

def exStLater : CGState := { exSt with m_it := 3 }

/-- `exSt` with the iteration budget already exceeded. -/

def exStDone : CGState := { exSt with m_it := 7, m_maxit := 3 }

/-- Modelled from the spec (§4.4 reduction contract): in a single-chare run
(`thisIndex = 0`) the all-reduce returns the sole local contribution, so
each reduction callback receives the chare's own dot partial. -/

def serialDot (s : CGState) (a b : List ℚ) : ℚ :=
  dot s.m_nodeCommMap s.m_gid 0 a b

/-- Modelled from the spec (§4.5 init; the `.ci` control-flow file is not
among the sources): serial `init()` — `residual()` (with an empty comm map
the exchange completes at once), the `(b,b)` reduction into `normb`, then
`initres` once both are complete. -/

def serialInit (sq : ℚ → ℚ) (s : CGState) : CGState × ℚ :=
  ConjugateGradients.initres
    (ConjugateGradients.normb sq (ConjugateGradients.residual s)
      (serialDot s s.m_b s.m_b))

/-- One serial `next()` round up to finishing `q = A·p`: the `(r,r)`
reduction into `rho`, then `qAp` (with an empty comm map the exchange
completes at once) and the combine step `q()`. -/

def stepToQ (s : CGState) : CGState :=
  ConjugateGradients.q
    (ConjugateGradients.qAp
      (ConjugateGradients.rho s (serialDot s s.m_r s.m_r)))

/-- The `(p,q)` reduction delivered to `pq`, which may fail with
breakdown. -/

def stepPq (s : CGState) : Except ConjugateGradients.Failure CGState :=
  ConjugateGradients.pq s (serialDot s s.m_p s.m_q)

/-- One full serial CG iteration: `next()` through `normres`; `none` in the
result means another iteration follows, `some norm` means the solve
continuation is invoked. -/

def serialIteration (sq : ℚ → ℚ) (s : CGState) :
    Except ConjugateGradients.Failure (CGState × Option ℚ) :=
  (stepPq (stepToQ s)).map fun s3 =>
    ConjugateGradients.normres sq s3 (serialDot s3 s3.m_r s3.m_r)

/-- The serial solve loop: run iterations until `normres` stops or `pq`
fails; terminates because each iteration increments `m_it` and a
continuation requires `m_it < m_maxit` afterwards. -/
def iterate (sq : ℚ → ℚ) (s : CGState) :
    Except ConjugateGradients.Failure (CGState × ℚ) :=
  match h : serialIteration sq s with
  | .error e => .error e
  | .ok (s', some norm) => .ok (s', norm)
  | .ok (s', none) => iterate sq s'
termination_by s.m_maxit - s.m_it
decreasing_by
  unfold serialIteration at h
  cases hq : stepPq (stepToQ s) with
  | error e => rw [hq] at h; cases h
  | ok s3 =>
    rw [hq] at h
    have h2 : ConjugateGradients.normres sq s3 (serialDot s3 s3.m_r s3.m_r)
        = (s', none) := Except.ok.inj h
    have hpq : s3.m_it = (stepToQ s).m_it ∧ s3.m_maxit = (stepToQ s).m_maxit := by
      unfold stepPq ConjugateGradients.pq at hq
      split at hq
      · have := Except.ok.inj hq
        subst this
        exact ⟨rfl, rfl⟩
      · cases hq
    have hto : (stepToQ s).m_it = s.m_it := rfl
    have htom : (stepToQ s).m_maxit = s.m_maxit := rfl
    have hn : s'.m_it = s3.m_it + 1 ∧ s'.m_maxit = s3.m_maxit ∧
        s3.m_it + 1 < s3.m_maxit := by
      simp only [ConjugateGradients.normres] at h2
      split at h2
      case isTrue hc =>
        injection h2 with e1 e2
        subst e1
        exact ⟨rfl, rfl, hc.1⟩
      case isFalse hc =>
        injection h2 with e1 e2
        cases e2
    obtain ⟨ha, hb⟩ := hpq
    obtain ⟨hc1, hc2, hc3⟩ := hn
    omega

/-- Serial `solve(maxit, tol, c)`: store the parameters, reset the
iteration counter, run `next()` rounds until `normres` stops. -/

def solveRun (sq : ℚ → ℚ) (s : CGState) (maxit : Nat) (tol : ℚ) :
    Except ConjugateGradients.Failure (CGState × ℚ) :=
  iterate sq (ConjugateGradients.solve s maxit tol)

/-- Iteration counter at termination (zero when the solve aborted). -/

def finalIt (e : Except ConjugateGradients.Failure (CGState × ℚ)) : Nat :=
  match e with
  | .ok (s, _) => s.m_it
  | .error _ => 0

/-- A state whose matrix is the zero 1×1 block: `q = A·p = 0`, so the
`(p,q)` reduction is 0 and the breakdown assertion fires. -/

def exStZero : CGState := { exSt with A := ⟨1, 1, fun _ => [0]⟩ }

/-- The 1×1 system matrix `A = [2]` of the concrete run. -/
def mult2 : CSR := ⟨1, 1, fun v => [2 * v.getD 0 0]⟩

/-- State after `init()` and the member resets of `solve(0, 3/10, c)` for
the system `2x = 1`, `x0 = 0`, serial mode. -/
def cgB : CGState := ConjugateGradients.solve
  ((serialInit id (ConjugateGradients.construct mult2 [0] [1] [] [] [])).1) 0 (3 / 10)

/-- The state after the one iteration that `solve(0, …)` nevertheless
performs on `cgB`. -/
def cgFinal : CGState :=
  { cgB with
    m_x := [1 / 2], m_r := [0], m_p := [1], m_q := [2],
    m_rho := 1, m_rho0 := 1, m_alpha := 1 / 2, m_it := 1 }

/-- Modelled from the spec (§4.5 init together with the missing `.ci`
control flow): one full init round of a chare that receives the listed
messages from its neighbors — `residual()`, reception of every message by
`comres`, the globally reduced `(b,b)` delivered to `normb`, then
`initres` once all of them are complete. -/
def initRound (sq : ℚ → ℚ) (s : CGState)
    (msgs : List (List Nat × List (List ℚ))) (bb : ℚ) : CGState × ℚ :=
  ConjugateGradients.initres
    (ConjugateGradients.normb sq
      (msgs.foldl (fun t m => (ConjugateGradients.comres t m.1 m.2).1)
        (ConjugateGradients.residual s))
      bb)

/-- All `(global id, contribution)` pairs carried by a list of messages. -/
def msgPairs (msgs : List (List Nat × List (List ℚ))) : List (Nat × List ℚ) :=
  (msgs.map fun m => m.1.zip m.2).flatten

/-- Contribution of one `(global id, vector)` pair to local position `i`
(the pair lands at positions `lid(g)·dof + c`, `c < dof`). -/
def pairContrib (lid : Nat → Option Nat) (dof : Nat) (p : Nat × List ℚ)
    (i : Nat) : ℚ :=
  if (lid p.1).getD 0 * dof ≤ i ∧ i < (lid p.1).getD 0 * dof + dof then
    p.2.getD (i - (lid p.1).getD 0 * dof) 0
  else 0

/-- Total communicated contribution at local position `i`. -/
def totalContrib (lid : Nat → Option Nat) (dof : Nat)
    (pairs : List (Nat × List ℚ)) (i : Nat) : ℚ :=
  (pairs.map fun p => pairContrib lid dof p i).sum

/-- A concrete two-unknown state with one shared node (global id 0) used to
instantiate the init-round theorem: `A·x = x`, `b = [5,7]`, one neighbor. -/
def exInit : CGState :=
  { A := ⟨2, 1, fun v => [v.getD 0 0, v.getD 1 0]⟩, m_x := [1, 1],
    m_b := [5, 7], m_gid := [0, 1],
    m_lid := fun g => if g = 0 then some 0 else if g = 1 then some 1 else none,
    m_nodeCommMap := [(1, [0])], m_r := [0, 0], m_rc := [], m_nr := 0,
    m_p := [0, 0], m_q := [0, 0], m_qc := [], m_nq := 0, m_normb := 0,
    m_it := 0, m_maxit := 0, m_rho := 0, m_rho0 := 0, m_alpha := 0,
    m_tol := 0 }

/-- A whole partitioning, for reasoning about several chares at once: a
list of `(chare id, its ordered global ids)` pairs. -/
abbrev Partitioning : Type := List (Int × List Nat)

/-- Whether global id `g` is listed in a comm map under neighbor `q`. -/
def listedUnder (m : NodeCommMap) (q : Int) (g : Nat) : Bool :=
  m.any fun s => s.1 == q && s.2.contains g

/-- Whether a comm map lists `g` under any neighbor (the chare holds the
shared id `g`). -/
def holdsIn (m : NodeCommMap) (g : Nat) : Bool :=
  m.any fun s => s.2.contains g

/-- Modelled from the spec (§3): the comm map induced by complete sharing —
the chare `c` holding `gs` lists, for every other partition of the
configuration, the global ids both hold. -/
def inducedMap (cfg : Partitioning) (c : Int) (gs : List Nat) : NodeCommMap :=
  (cfg.filter fun p => p.1 != c).map fun p =>
    (p.1, gs.filter fun g => p.2.contains g)

/-- The constant vector `v = 1` of a given length. -/
def ones (n : Nat) : List ℚ := List.replicate n 1

/-- The distinct global ids of a partitioning (the true global unknown
count is its length). -/
def globalIds (cfg : Partitioning) : List Nat :=
  ((cfg.map Prod.snd).flatten).dedup

/-- Four chares all holding global id 7, with symmetric comm maps listing
it only in the two disjoint pairs 0 ↔ 1 and 2 ↔ 3. -/
def ex4 : List (Int × NodeCommMap) :=
  [(0, [(1, [7])]), (1, [(0, [7])]), (2, [(3, [7])]), (3, [(2, [7])])]

/-- A concrete two-partition configuration sharing global id 1. -/
def cfg2 : Partitioning := [(0, [0, 1]), (1, [1, 2])]

/-- Unfold a guarded accumulating fold into an initial value plus a sum. -/

theorem foldl_guard_add (P : Nat → Bool) (f : Nat → ℚ) (l : List Nat) (c : ℚ) :
    l.foldl (fun d i => if P i then d + f i else d) c
      = c + (l.map fun i => if P i then f i else 0).sum := by
  induction l generalizing c with
  | nil => simp
  | cons x xs ih => by_cases h : P x <;> simp [h, ih, add_assoc]

/-- The code's slave test, characterised extensionally. -/

theorem slave_iff (map : NodeCommMap) (node : Nat) (chare : Int) :
    slave map node chare = true ↔ ∃ s ∈ map, chare < s.1 ∧ node ∈ s.2 := by
  simp only [slave, List.any_eq_true, Bool.and_eq_true, decide_eq_true_eq,
    List.contains, List.elem_iff]
  constructor
  · rintro ⟨s, hs, hmem, hlt⟩; exact ⟨s, hs, hlt, hmem⟩
  · rintro ⟨s, hs, hlt, hmem⟩; exact ⟨s, hs, hmem, hlt⟩

/-- C1: counterexample.  Take the comm map `{1 ↦ {5}}` seen by chare `0`:
chare 0 is the lowest-id holder of node 5, so under the claimed rule chare 0
owns node 5 and its dot partial over `gid = [5]`, `a = b = [1]` would be `1`;
the code's `slave` test nevertheless excludes the index and the partial
is `0`. -/

theorem C1_counterexample :
    slave [(1, [5])] 5 0 = true ∧
    lowestRuleExcluded [(1, [5])] 5 0 = false ∧
    dot [(1, [5])] [5] 0 [1] [1] = 0 ∧
    dotLowestRule [(1, [5])] [5] 0 [1] [1] = 1 := by
  refine ⟨by decide, by decide, ?_, ?_⟩ <;>
    simp [dot, dotLowestRule, slave, lowestRuleExcluded, List.range_succ]

/-- C1 (amended): the owner of a shared global id is the partition with the
*highest* id among the partitions listed for it: in every dot product a
partition excludes exactly those local indices whose global id is listed in
its comm map under some neighbor with a *higher* chare id. -/

theorem C1_amended (map : NodeCommMap) (gid : List Nat) (chare : Int)
    (a b : List ℚ) :
    dot map gid chare a b
      = ((List.range a.length).map fun i =>
          if ∃ s ∈ map, chare < s.1 ∧ gid.getD i 0 ∈ s.2 then 0
          else a.getD i 0 * b.getD i 0).sum := by
  rw [dot, foldl_guard_add, zero_add]
  refine congrArg _ (List.map_congr_left fun i _ => ?_)
  by_cases h : slave map (gid.getD i 0) chare = true
  · have h' : ∃ s ∈ map, chare < s.1 ∧ gid.getD i 0 ∈ s.2 := (slave_iff _ _ _).mp h
    simp only [List.getD_eq_getElem?_getD] at h h' ⊢
    simp [h, h']
  · have h' : ¬ ∃ s ∈ map, chare < s.1 ∧ gid.getD i 0 ∈ s.2 := fun hx =>
      h ((slave_iff _ _ _).mpr hx)
    rw [Bool.not_eq_true] at h
    simp only [List.getD_eq_getElem?_getD] at h h' ⊢
    simp [h, h']

/-- `dot` is exactly the guarded fold over its `m_gid` access indices. -/

theorem dot_eq_foldl_over_accesses (map : NodeCommMap) (gid : List Nat)
    (chare : Int) (a b : List ℚ) :
    dot map gid chare a b
      = (dotGidAccesses a).foldl
          (fun d i =>
            if !(slave map (gid.getD i 0) chare) then d + a.getD i 0 * b.getD i 0
            else d)
          0 := rfl

/-- C9: with a caller-supplied (non-empty) global-id map the construction
invariant is `rsize() = gid.size() * Ncomp()`, and every `m_gid` read of
`dot` on length-`rsize()` vectors is in bounds iff `Ncomp() = 1`; for
`Ncomp() > 1` the read at index `gid.size()` is past the end. -/

theorem C9_dot_gid_bounds (gid : List Nat) (ncomp : Nat) (a : List ℚ)
    (hg : 0 < gid.length) (hn : 0 < ncomp)
    (hsz : a.length = gid.length * ncomp) :
    ((∀ i ∈ dotGidAccesses a, i < gid.length) ↔ ncomp = 1) ∧
    (1 < ncomp → ∃ i ∈ dotGidAccesses a, gid.length ≤ i) := by
  have hmem : ∀ i : Nat, i ∈ dotGidAccesses a ↔ i < gid.length * ncomp := by
    intro i; simp [dotGidAccesses, hsz]
  have hbig : 1 < ncomp → gid.length < gid.length * ncomp := by
    intro h2
    have := mul_lt_mul_of_pos_left h2 hg
    simpa using this
  constructor
  · constructor
    · intro h
      by_contra hne
      have h2 : 1 < ncomp := by omega
      exact absurd (h gid.length ((hmem _).mpr (hbig h2))) (by omega)
    · intro h1 i hi
      rw [hmem, h1, Nat.mul_one] at hi
      exact hi
  · intro h2
    exact ⟨gid.length, (hmem _).mpr (hbig h2), le_refl _⟩

/-- C9 witness: `gid = [7]`, `Ncomp = 2`, a vector of length `2 = 1·2`. -/

theorem C9_witness :
    ((∀ i ∈ dotGidAccesses [(1 : ℚ), 1], i < [7].length) ↔ 2 = 1) ∧
    (1 < 2 → ∃ i ∈ dotGidAccesses [(1 : ℚ), 1], [7].length ≤ i) :=
  C9_dot_gid_bounds [7] 2 [1, 1] (by decide) (by decide) (by decide)

/-- The identity loop `for g in iota(n): m_lid[g] = g`, in closed form. -/

theorem foldl_fnInsert_range (m : Nat → Option Nat) (n : Nat) (k : Nat) :
    (List.range n).foldl (fun m g => fnInsert m g g) m k
      = if k < n then some k else m k := by
  induction n with
  | zero => simp
  | succ n ih =>
    rw [List.range_succ, List.foldl_append]
    simp only [List.foldl_cons, List.foldl_nil, fnInsert]
    by_cases hk : k = n
    · subst hk; simp
    · rw [if_neg hk, ih]
      rcases Nat.lt_trichotomy k n with h | h | h
      · rw [if_pos h, if_pos (by omega)]
      · exact absurd h hk
      · rw [if_neg (by omega), if_neg (by omega)]

/-- C10: counterexample.  Construct with `gid = []` (so the serial fill-in
triggers), caller `lid = {5 ↦ 3}` non-empty and `x.size() = 2`: the
caller-supplied entry `5 ↦ 3` survives in `m_lid`, so the constructor does
not discard `lid` and install the identity map of length 2 (which has no
entry at key 5). -/

theorem C10_counterexample :
    (ConjugateGradients.construct ⟨2, 1, fun v => v⟩ [0, 0] [0, 0] [] [(5, 3)] []).m_lid 5
      = some 3 ∧
    mapLookup ((List.range 2).map fun i => (i, i)) 5 = none := by
  exact ⟨rfl, by decide⟩

/-- C10 (amended): if any of `gid`, `lid`, `NodeCommMap` is empty at
construction, the constructor replaces `gid` by the identity list
`0, …, x.size()-1` and writes the identity entries `lid[i] = i` for every
`i < x.size()` (overwriting clashing caller entries), so `gid[i] = i`,
`lid[i] = i` and the inverse invariant `lid[gid[i]] = i` hold for all local
`i`; caller-supplied `lid` entries at keys `≥ x.size()` are retained, not
discarded. -/

theorem C10_amended (A : CSR) (x b : List ℚ) (gid : List Nat)
    (lid : List (Nat × Nat)) (ncm : NodeCommMap)
    (h : (gid.isEmpty || lid.isEmpty || ncm.isEmpty) = true) :
    (ConjugateGradients.construct A x b gid lid ncm).m_gid = List.range x.length ∧
    (∀ i < x.length, (ConjugateGradients.construct A x b gid lid ncm).m_lid i = some i) ∧
    (∀ i < x.length,
      (ConjugateGradients.construct A x b gid lid ncm).m_lid
        ((ConjugateGradients.construct A x b gid lid ncm).m_gid.getD i 0) = some i) ∧
    (∀ k, x.length ≤ k →
      (ConjugateGradients.construct A x b gid lid ncm).m_lid k = mapLookup lid k) := by
  have hgetD : ∀ i < x.length, (List.range x.length).getD i 0 = i := by
    intro i hi
    rw [List.getD_eq_getElem?_getD, List.getElem?_range hi]
    rfl
  refine ⟨?_, ?_, ?_, ?_⟩
  · simp [ConjugateGradients.construct, h]
  · intro i hi
    simp only [ConjugateGradients.construct, h, if_true]
    rw [foldl_fnInsert_range, if_pos hi]
  · intro i hi
    simp only [ConjugateGradients.construct, h, if_true]
    rw [hgetD i hi, foldl_fnInsert_range, if_pos hi]
  · intro k hk
    simp only [ConjugateGradients.construct, h, if_true]
    rw [foldl_fnInsert_range, if_neg (by omega)]

/-- C10 witness: concrete instance of the amended constructor behaviour. -/

theorem C10_witness :
    (ConjugateGradients.construct ⟨2, 1, fun v => v⟩ [0, 0] [0, 0] [] [(5, 3)] []).m_gid
      = List.range 2 ∧
    (ConjugateGradients.construct ⟨2, 1, fun v => v⟩ [0, 0] [0, 0] [] [(5, 3)] []).m_lid 1
      = some 1 ∧
    (ConjugateGradients.construct ⟨2, 1, fun v => v⟩ [0, 0] [0, 0] [] [(5, 3)] []).m_lid 5
      = mapLookup [(5, 3)] 5 :=
  ⟨(C10_amended ⟨2, 1, fun v => v⟩ [0, 0] [0, 0] [] [(5, 3)] [] (by decide)).1,
   (C10_amended ⟨2, 1, fun v => v⟩ [0, 0] [0, 0] [] [(5, 3)] [] (by decide)).2.1 1 (by decide),
   (C10_amended ⟨2, 1, fun v => v⟩ [0, 0] [0, 0] [] [(5, 3)] [] (by decide)).2.2.2 5 (by decide)⟩

/-- Reading a vector back elementwise reproduces it. -/

theorem range_map_getD (v : List ℚ) :
    ((List.range v.length).map fun i => v.getD i 0) = v := by
  apply List.ext_getElem (by simp)
  intro i h1 h2
  simp only [List.getElem_map, List.getElem_range, List.getD_eq_getElem?_getD,
    List.getElem?_eq_getElem h2, Option.getD_some]

/-- `range_map_getD` in the `getElem?` normal form `simp` produces. -/

theorem range_map_getElem (v : List ℚ) :
    ((List.range v.length).map fun i => v[i]?.getD 0) = v := by
  apply List.ext_getElem (by simp)
  intro i h1 h2
  simp [List.getElem?_eq_getElem h2]

/-- Value of an elementwise-constructed vector at an in-range index. -/

theorem getD_map_range (n i : Nat) (f : Nat → ℚ) (h : i < n) :
    ((List.range n).map f).getD i 0 = f i := by
  rw [List.getD_eq_getElem?_getD, List.getElem?_map, List.getElem?_range h]
  rfl

/-- C6: on the first iteration of every `solve()` call (`m_it = 0` after the
reset) the forced `α` is exactly 0 and the search-direction update gives
`p = r` elementwise, for any prior contents of `p`; on every later
iteration `α = ρ/ρ₀` and `ρ₀` is then set to `ρ`. -/

theorem C6_bootstrap (s : CGState) (maxit : Nat) (tol rv : ℚ)
    (hlen : s.m_p.length = s.m_r.length) :
    (ConjugateGradients.rho (ConjugateGradients.solve s maxit tol) rv).m_alpha = 0 ∧
    (ConjugateGradients.rho (ConjugateGradients.solve s maxit tol) rv).m_p = s.m_r ∧
    (∀ t : CGState, t.m_it ≠ 0 →
      (ConjugateGradients.rho t rv).m_alpha = rv / t.m_rho0 ∧
      (ConjugateGradients.rho t rv).m_rho0 = rv) := by
  refine ⟨?_, ?_, ?_⟩
  · simp [ConjugateGradients.rho, ConjugateGradients.solve]
  · simp [ConjugateGradients.rho, ConjugateGradients.solve, hlen, range_map_getElem]
  · intro t ht
    simp [ConjugateGradients.rho, ht]

/-- C6 witness: concrete first-iteration and later-iteration instances. -/

theorem C6_witness :
    (ConjugateGradients.rho (ConjugateGradients.solve exSt 5 (1 / 10)) 4).m_alpha = 0 ∧
    (ConjugateGradients.rho (ConjugateGradients.solve exSt 5 (1 / 10)) 4).m_p = exSt.m_r ∧
    ((ConjugateGradients.rho exStLater 4).m_alpha = 4 / exStLater.m_rho0 ∧
     (ConjugateGradients.rho exStLater 4).m_rho0 = 4) :=
  ⟨(C6_bootstrap exSt 5 (1 / 10) 4 rfl).1,
   (C6_bootstrap exSt 5 (1 / 10) 4 rfl).2.1,
   (C6_bootstrap exSt 5 (1 / 10) 4 rfl).2.2 exStLater (by decide)⟩

/-- C7: after `x = x + α p` and `++it`, `normres` continues with a further
iteration iff `it < maxit` and `norm > tol·‖b‖`; otherwise it hands the
final norm to the solve continuation, and both outcomes come out of the
same total function (the same successful-return path, no error path). -/

theorem C7_stop (sq : ℚ → ℚ) (s : CGState) (rv : ℚ) :
    ((ConjugateGradients.normres sq s rv).2 = none ↔
      (s.m_it + 1 < s.m_maxit ∧ sq rv > s.m_tol * s.m_normb)) ∧
    (¬ (s.m_it + 1 < s.m_maxit ∧ sq rv > s.m_tol * s.m_normb) →
      (ConjugateGradients.normres sq s rv).2 = some (sq rv)) ∧
    ((ConjugateGradients.normres sq s rv).1.m_it = s.m_it + 1) ∧
    (∀ i < s.m_x.length,
      ((ConjugateGradients.normres sq s rv).1.m_x).getD i 0
        = s.m_x.getD i 0 + s.m_alpha * s.m_p.getD i 0) := by
  by_cases h : s.m_it + 1 < s.m_maxit ∧ sq rv > s.m_tol * s.m_normb
  · refine ⟨by simp [ConjugateGradients.normres, h], fun hn => absurd h hn, ?_, ?_⟩
    · simp [ConjugateGradients.normres, h]
    · intro i hi
      simp only [ConjugateGradients.normres, if_pos h]
      exact getD_map_range _ _ _ hi
  · refine ⟨by simp [ConjugateGradients.normres, h], fun _ => ?_, ?_, ?_⟩
    · simp [ConjugateGradients.normres, h]
    · simp [ConjugateGradients.normres, h]
    · intro i hi
      simp only [ConjugateGradients.normres, if_neg h]
      exact getD_map_range _ _ _ hi

/-- C7 witness: with the iteration budget exceeded the step stops and
reports the norm through the same return path. -/

theorem C7_witness :
    (ConjugateGradients.normres id exStDone 9).2 = some 9 ∧
    (ConjugateGradients.normres id exStDone 9).1.m_it = 8 ∧
    ((ConjugateGradients.normres id exStDone 9).1.m_x).getD 0 0
      = exStDone.m_x.getD 0 0 + exStDone.m_alpha * exStDone.m_p.getD 0 0 :=
  ⟨(C7_stop id exStDone 9).2.1 (by decide),
   (C7_stop id exStDone 9).2.2.1,
   (C7_stop id exStDone 9).2.2.2 0 (by decide)⟩

/-- `pq` returns the input state with only `m_alpha` and `m_r` changed. -/

theorem pq_ok_meta (s : CGState) (d : ℚ) (s' : CGState)
    (h : ConjugateGradients.pq s d = .ok s') :
    s'.m_it = s.m_it ∧ s'.m_maxit = s.m_maxit := by
  unfold ConjugateGradients.pq at h
  split at h
  · have := Except.ok.inj h
    subst this
    exact ⟨rfl, rfl⟩
  · cases h

/-- `normres` always increments `m_it`, never changes `m_maxit`, and asks
for another iteration only when `it < maxit` holds afterwards. -/

theorem normres_meta (sq : ℚ → ℚ) (t : CGState) (rv : ℚ) :
    (ConjugateGradients.normres sq t rv).1.m_it = t.m_it + 1 ∧
    (ConjugateGradients.normres sq t rv).1.m_maxit = t.m_maxit ∧
    ((ConjugateGradients.normres sq t rv).2 = none → t.m_it + 1 < t.m_maxit) := by
  simp only [ConjugateGradients.normres]
  split
  case isTrue hc => exact ⟨rfl, rfl, fun _ => hc.1⟩
  case isFalse hc => exact ⟨rfl, rfl, fun hx => by cases hx⟩

/-- A successful serial iteration advances `m_it` by one and preserves
`m_maxit`; if it asks for another iteration then `m_it < m_maxit` holds in
the new state. -/

theorem serialIteration_ok_meta (sq : ℚ → ℚ) (s s' : CGState) (o : Option ℚ)
    (h : serialIteration sq s = .ok (s', o)) :
    s'.m_it = s.m_it + 1 ∧ s'.m_maxit = s.m_maxit ∧
    (o = none → s'.m_it < s'.m_maxit) := by
  unfold serialIteration at h
  cases hq : stepPq (stepToQ s) with
  | error e => rw [hq] at h; cases h
  | ok s3 =>
    rw [hq] at h
    have h2 := Except.ok.inj h
    obtain ⟨hit3, hmax3⟩ := pq_ok_meta (stepToQ s) _ s3 hq
    have hto : (stepToQ s).m_it = s.m_it := rfl
    have htomax : (stepToQ s).m_maxit = s.m_maxit := rfl
    obtain ⟨hni, hnm, hnc⟩ := normres_meta sq s3 (serialDot s3 s3.m_r s3.m_r)
    have h2' : ConjugateGradients.normres sq s3 (serialDot s3 s3.m_r s3.m_r) = (s', o) := h2
    have hs' : (ConjugateGradients.normres sq s3 (serialDot s3 s3.m_r s3.m_r)).1 = s' := by
      rw [h2']
    have ho : (ConjugateGradients.normres sq s3 (serialDot s3 s3.m_r s3.m_r)).2 = o := by
      rw [h2']
    refine ⟨?_, ?_, ?_⟩
    · rw [← hs', hni, hit3, hto]
    · rw [← hs', hnm, hmax3, htomax]
    · intro hnone
      rw [← hs', hni, hnm]
      exact hnc (ho ▸ hnone)

/-- The loop never pushes `m_it` beyond `max m_maxit (m_it + 1)`. -/

theorem iterate_finalIt_le (sq : ℚ → ℚ) : ∀ (n : Nat) (s : CGState),
    s.m_maxit - s.m_it ≤ n →
    finalIt (iterate sq s) ≤ max s.m_maxit (s.m_it + 1) := by
  intro n
  induction n with
  | zero =>
    intro s hs
    rw [iterate]
    split
    · simp [finalIt]
    · rename_i s' norm heq
      obtain ⟨h1, h2, _⟩ := serialIteration_ok_meta sq s s' _ heq
      simp only [finalIt]
      omega
    · rename_i s' heq
      obtain ⟨h1, h2, h3⟩ := serialIteration_ok_meta sq s s' _ heq
      have h4 := h3 rfl
      omega
  | succ n ih =>
    intro s hs
    rw [iterate]
    split
    · simp [finalIt]
    · rename_i s' norm heq
      obtain ⟨h1, h2, _⟩ := serialIteration_ok_meta sq s s' _ heq
      simp only [finalIt]
      omega
    · rename_i s' heq
      obtain ⟨h1, h2, h3⟩ := serialIteration_ok_meta sq s s' _ heq
      have h4 := h3 rfl
      have h5 := ih s' (by omega)
      omega

/-- C3 (amended): `solve(maxit, tol, c)` performs at most `max maxit 1`
iterations; the loop tests `it < maxit` only after the post-iteration
increment, so the first iteration always runs, and calling with
`maxit = 0` still executes one full iteration (advancing `x` and `it`)
before the solve continuation is invoked. -/

theorem C3_amended (sq : ℚ → ℚ) (s : CGState) (maxit : Nat) (tol : ℚ) :
    finalIt (solveRun sq s maxit tol) ≤ max maxit 1 := by
  have h := iterate_finalIt_le sq maxit (ConjugateGradients.solve s maxit tol)
    (by simp [ConjugateGradients.solve])
  simpa [ConjugateGradients.solve, solveRun] using h

/-- A serial iteration that stops makes the loop return its result. -/
theorem iterate_stop (sq : ℚ → ℚ) (s s' : CGState) (n : ℚ)
    (h : serialIteration sq s = .ok (s', some n)) :
    iterate sq s = .ok (s', n) := by
  rw [iterate, h]

/-- Evaluating the single iteration of the concrete `maxit = 0` run. -/
theorem serialIteration_cgB : serialIteration id cgB = .ok (cgFinal, some 0) := by
  norm_num [serialIteration, stepPq, stepToQ, serialDot, cgB, cgFinal, serialInit,
    mult2, ConjugateGradients.construct, ConjugateGradients.residual,
    ConjugateGradients.normb, ConjugateGradients.initres,
    ConjugateGradients.solve, ConjugateGradients.rho, ConjugateGradients.qAp,
    ConjugateGradients.q, ConjugateGradients.pq, ConjugateGradients.normres,
    dot, slave, applyAcc, accPairs, vecAdd, addAt, List.range_succ,
    fnInsert, mapLookup, Except.map]

/-- C3: counterexample.  The 1×1 system `2x = 1` with `x0 = 0`, solved with
`maxit = 0`: the solver does not return immediately — it performs one full
iteration, ending with `it = 1 > maxit` and `x = [1/2] ≠ x0`, and only then
invokes the solve continuation. -/
theorem C3_counterexample :
    (solveRun id
        ((serialInit id (ConjugateGradients.construct mult2 [0] [1] [] [] [])).1)
        0 (3 / 10)).toOption.map (fun res => (res.1.m_it, res.1.m_x))
      = some (1, [1 / 2]) := by
  have h2 : solveRun id
      ((serialInit id (ConjugateGradients.construct mult2 [0] [1] [] [] [])).1)
      0 (3 / 10) = .ok (cgFinal, 0) := by
    rw [solveRun]
    exact iterate_stop id cgB cgFinal 0 serialIteration_cgB
  rw [h2]
  rfl

/-- C4: during an iteration, a reduced `(p,q) = d ≤ ε` (`ε = 10⁻¹⁴`) makes
`pq` fail fatally with the breakdown diagnostic before `α = ρ/(p,q)` is
computed; a successful `pq` guarantees `d > ε > 0` and only then sets
`α = ρ/d`, so the division is never by a non-positive value; and a failure
of `pq` aborts the whole iteration — the error is propagated, never
swallowed. -/

theorem C4_breakdown (sq : ℚ → ℚ) (s t : CGState) (d : ℚ) :
    (d ≤ 1 / 10 ^ 14 →
      ConjugateGradients.pq t d = .error ConjugateGradients.Failure.breakdown) ∧
    (∀ t', ConjugateGradients.pq t d = .ok t' →
      1 / 10 ^ 14 < d ∧ 0 < d ∧ t'.m_alpha = t.m_rho / d) ∧
    (∀ f, stepPq (stepToQ s) = .error f → serialIteration sq s = .error f) := by
  refine ⟨?_, ?_, ?_⟩
  · intro hd
    unfold ConjugateGradients.pq
    rw [if_neg (not_lt.mpr hd)]
  · intro t' h
    unfold ConjugateGradients.pq at h
    split at h
    case isTrue hgt =>
      have := Except.ok.inj h
      subst this
      exact ⟨hgt, lt_trans (by norm_num) hgt, rfl⟩
    case isFalse => cases h
  · intro f hf
    unfold serialIteration
    rw [hf]
    rfl

/-- A positive `(p,q)` on `exSt`: `α = 4/2` and `r` recomputed. -/
theorem pq_exSt_two :
    ConjugateGradients.pq exSt 2 = .ok { exSt with m_alpha := 2, m_r := [3] } := by
  norm_num [ConjugateGradients.pq, exSt, List.range_succ]

/-- The zero-matrix state reaches `pq` with `(p,q) = 0` and fails. -/
theorem stepPq_exStZero :
    stepPq (stepToQ exStZero) = .error ConjugateGradients.Failure.breakdown := by
  norm_num [stepPq, stepToQ, serialDot, exStZero, exSt, ConjugateGradients.rho,
    ConjugateGradients.qAp, ConjugateGradients.q, ConjugateGradients.pq,
    dot, slave, applyAcc, List.range_succ]

/-- C4 witness: a non-positive `(p,q)` fails fatally; a positive one sets
`α = ρ/(p,q)`; the zero-matrix state aborts its whole iteration. -/
theorem C4_witness :
    (ConjugateGradients.pq exSt 0 = .error ConjugateGradients.Failure.breakdown) ∧
    ((1 : ℚ) / 10 ^ 14 < 2 ∧ (0 : ℚ) < 2 ∧
      ({ exSt with m_alpha := 2, m_r := [3] } : CGState).m_alpha = exSt.m_rho / 2) ∧
    (serialIteration id exStZero = .error ConjugateGradients.Failure.breakdown) :=
  ⟨(C4_breakdown id exStZero exSt 0).1 (by norm_num),
   (C4_breakdown id exStZero exSt 2).2.1 { exSt with m_alpha := 2, m_r := [3] }
     pq_exSt_two,
   (C4_breakdown id exStZero exSt 0).2.2 ConjugateGradients.Failure.breakdown
     stepPq_exStZero⟩

/-- `vecAdd` is pointwise addition (missing positions read as zero). -/
theorem vecAdd_getD (u w : List ℚ) (i : Nat) :
    (vecAdd u w).getD i 0 = u.getD i 0 + w.getD i 0 := by
  by_cases h : i < max u.length w.length
  · unfold vecAdd
    rw [getD_map_range _ _ _ h]
  · have hu : u.length ≤ i := by omega
    have hw : w.length ≤ i := by omega
    have hm : (vecAdd u w).length ≤ i := by
      unfold vecAdd; simp; omega
    rw [List.getD_eq_default _ _ hm, List.getD_eq_default _ _ hu,
      List.getD_eq_default _ _ hw]
    norm_num

/-- `List.set` preserves length, so `addAt` does. -/
theorem addAt_length (v : List ℚ) (base dof : Nat) (w : List ℚ) :
    (addAt v base dof w).length = v.length := by
  unfold addAt
  generalize List.range dof = l
  induction l generalizing v with
  | nil => rfl
  | cons c cs ih =>
    rw [List.foldl_cons, ih, List.length_set]

/-- Pointwise value of the component loop `for c < dof: v[base+c] += w[c]`:
inside the window it adds the matching component of `w`. -/
theorem addAt_getD (v : List ℚ) (base dof : Nat) (w : List ℚ) (i : Nat)
    (hw : base + dof ≤ v.length) :
    (addAt v base dof w).getD i 0
      = v.getD i 0 + (if base ≤ i ∧ i < base + dof then w.getD (i - base) 0 else 0) := by
  induction dof with
  | zero =>
    unfold addAt
    simp
  | succ n ih =>
    have hw' : base + n ≤ v.length := by omega
    have hstep : addAt v base (n + 1) w
        = (addAt v base n w).set (base + n)
            ((addAt v base n w).getD (base + n) 0 + w.getD n 0) := by
      unfold addAt
      rw [List.range_succ, List.foldl_append, List.foldl_cons, List.foldl_nil]
    rw [hstep]
    have hlen : (addAt v base n w).length = v.length := addAt_length v base n w
    by_cases hi : i = base + n
    · subst hi
      have hin : base + n < (addAt v base n w).length := by omega
      have hC1 : ¬ (base ≤ base + n ∧ base + n < base + n) := by omega
      have hC2 : base ≤ base + n ∧ base + n < base + (n + 1) := by omega
      rw [List.getD_eq_getElem?_getD, List.getElem?_set, if_pos rfl, if_pos hin,
        Option.getD_some, ih hw', if_neg hC1, if_pos hC2]
      simp
    · rw [List.getD_eq_getElem?_getD, List.getElem?_set, if_neg (fun hx => hi hx.symm),
        ← List.getD_eq_getElem?_getD, ih hw']
      by_cases hwin : base ≤ i ∧ i < base + n
      · rw [if_pos hwin, if_pos (by omega : base ≤ i ∧ i < base + (n + 1))]
      · rw [if_neg hwin, if_neg (by omega : ¬ (base ≤ i ∧ i < base + (n + 1)))]

/-- Pointwise value of the combine loop of `initres`/`q`: folding the whole
accumulator into `v` adds the total accumulated contribution at every
in-range position. -/
theorem applyAcc_getD (lid : Nat → Option Nat) (dof : Nat)
    (acc : List (Nat × List ℚ)) (v : List ℚ) (i : Nat) (hi : i < v.length)
    (hb : ∀ p ∈ acc, (lid p.1).getD 0 * dof + dof ≤ v.length) :
    (applyAcc lid dof acc v).getD i 0
      = v.getD i 0 + totalContrib lid dof acc i := by
  revert hi hb
  induction acc generalizing v with
  | nil =>
    intro hi hb
    simp [applyAcc, totalContrib]
  | cons e es ih =>
    intro hi hb
    have hbe := hb e (List.mem_cons_self e es)
    have hlen := addAt_length v ((lid e.1).getD 0 * dof) dof e.2
    have hi' : i < (addAt v ((lid e.1).getD 0 * dof) dof e.2).length := by
      rw [hlen]; exact hi
    have hrest : ∀ p ∈ es,
        (lid p.1).getD 0 * dof + dof
          ≤ (addAt v ((lid e.1).getD 0 * dof) dof e.2).length := by
      intro p hp
      rw [hlen]
      exact hb p (List.mem_cons_of_mem e hp)
    show (applyAcc lid dof es (addAt v ((lid e.1).getD 0 * dof) dof e.2)).getD i 0 = _
    rw [ih _ hi' hrest, addAt_getD v _ dof e.2 i hbe]
    simp only [totalContrib, List.map_cons, List.sum_cons]
    rw [pairContrib]
    ring

/-- A pair carrying a summed vector contributes the sum of the two
contributions. -/
theorem pairContrib_vecAdd (lid : Nat → Option Nat) (dof : Nat) (g : Nat)
    (u w : List ℚ) (i : Nat) :
    pairContrib lid dof (g, vecAdd u w) i
      = pairContrib lid dof (g, u) i + pairContrib lid dof (g, w) i := by
  unfold pairContrib
  split
  · exact vecAdd_getD u w _
  · norm_num

/-- A key present after `rcAdd` was present before or is the new key. -/
theorem keys_rcAdd_sub (m : List (Nat × List ℚ)) (g : Nat) (v : List ℚ)
    (k : Nat) (hk : k ∈ (rcAdd m g v).map Prod.fst) :
    k ∈ m.map Prod.fst ∨ k = g := by
  unfold rcAdd at hk
  split at hk
  · rw [List.map_map] at hk
    obtain ⟨q, hq, hqe⟩ := List.mem_map.mp hk
    left
    refine List.mem_map.mpr ⟨q, hq, ?_⟩
    by_cases hc : q.1 = g
    · simpa [hc] using hqe
    · simpa [hc] using hqe
  · rw [List.map_append] at hk
    rcases List.mem_append.mp hk with h1 | h2
    · exact Or.inl h1
    · right; simpa using h2

/-- `rcAdd` keeps the keys duplicate-free. -/
theorem keys_rcAdd_nodup (m : List (Nat × List ℚ)) (g : Nat) (v : List ℚ)
    (h : (m.map Prod.fst).Nodup) : ((rcAdd m g v).map Prod.fst).Nodup := by
  unfold rcAdd
  split
  · have heq : (m.map fun p => if p.1 == g then (p.1, vecAdd p.2 v) else p).map Prod.fst
        = m.map Prod.fst := by
      rw [List.map_map]
      refine List.map_congr_left fun p _ => ?_
      by_cases hc : p.1 = g <;> simp [hc]
    rw [heq]; exact h
  · rename_i hex
    rw [List.map_append]
    refine (List.nodup_append).mpr ⟨h, List.nodup_singleton _, ?_⟩
    intro a ha hb
    simp only [List.map_cons, List.map_nil, List.mem_singleton] at hb
    subst hb
    simp only [List.any_eq_true, Bool.not_eq_true] at hex
    obtain ⟨q, hq, hqe⟩ := List.mem_map.mp ha
    exact hex ⟨q, hq, by simp [hqe]⟩

/-- Accumulating into the unique entry with key `g` adds that pair's
contribution to the total. -/
theorem totalContrib_assign (lid : Nat → Option Nat) (dof : Nat)
    (w : List ℚ) (i : Nat) (g : Nat) :
    ∀ (m : List (Nat × List ℚ)), (m.map Prod.fst).Nodup →
      g ∈ m.map Prod.fst →
      totalContrib lid dof
          (m.map fun p => if p.1 == g then (p.1, vecAdd p.2 w) else p) i
        = totalContrib lid dof m i + pairContrib lid dof (g, w) i := by
  intro m
  induction m with
  | nil => simp
  | cons e es ih =>
    intro hnd hg
    have hndes : (es.map Prod.fst).Nodup := (List.nodup_cons.mp (by simpa using hnd)).2
    by_cases hk : e.1 = g
    · have hnoges : g ∉ es.map Prod.fst := by
        rw [← hk]
        exact (List.nodup_cons.mp (by simpa using hnd)).1
      have hmapes : es.map (fun p => if p.1 == g then (p.1, vecAdd p.2 w) else p)
          = es := by
        conv_rhs => rw [← List.map_id es]
        refine List.map_congr_left fun p hp => ?_
        have hpne : ¬ p.1 = g := fun hc =>
          hnoges (List.mem_map.mpr ⟨p, hp, hc⟩)
        simp [hpne]
      simp only [List.map_cons, totalContrib, List.sum_cons, hmapes]
      rw [if_pos (by simpa using hk)]
      have hpc : pairContrib lid dof (e.1, vecAdd e.2 w) i
          = pairContrib lid dof (e.1, e.2) i + pairContrib lid dof (g, w) i := by
        rw [hk]
        exact pairContrib_vecAdd lid dof g e.2 w i
      rw [hpc]
      ring
    · have hg' : g ∈ es.map Prod.fst := by
        rw [List.map_cons] at hg
        rcases List.mem_cons.mp hg with h1 | h2
        · exact absurd h1.symm hk
        · exact h2
      simp only [List.map_cons, totalContrib, List.sum_cons]
      rw [if_neg (by simpa using hk)]
      have := ih hndes hg'
      simp only [totalContrib] at this
      rw [this]
      ring

/-- `rcAdd` adds exactly the new pair's contribution to the total. -/
theorem totalContrib_rcAdd (lid : Nat → Option Nat) (dof : Nat)
    (m : List (Nat × List ℚ)) (g : Nat) (w : List ℚ) (i : Nat)
    (h : (m.map Prod.fst).Nodup) :
    totalContrib lid dof (rcAdd m g w) i
      = totalContrib lid dof m i + pairContrib lid dof (g, w) i := by
  unfold rcAdd
  split
  case isTrue hex =>
    have hg : g ∈ m.map Prod.fst := by
      simp only [List.any_eq_true] at hex
      obtain ⟨q, hq, hqe⟩ := hex
      exact List.mem_map.mpr ⟨q, hq, by simpa using hqe⟩
    exact totalContrib_assign lid dof w i g m h hg
  case isFalse hex =>
    simp [totalContrib, List.map_append]

/-- Folding a whole list of received pairs adds all their contributions. -/
theorem totalContrib_accPairs (lid : Nat → Option Nat) (dof : Nat) (i : Nat) :
    ∀ (pairs m : List (Nat × List ℚ)), (m.map Prod.fst).Nodup →
      totalContrib lid dof (accPairs m pairs) i
        = totalContrib lid dof m i + totalContrib lid dof pairs i := by
  intro pairs
  induction pairs with
  | nil =>
    intro m h
    simp [accPairs, totalContrib]
  | cons e es ih =>
    intro m h
    show totalContrib lid dof (accPairs (rcAdd m e.1 e.2) es) i = _
    rw [ih _ (keys_rcAdd_nodup m e.1 e.2 h),
      totalContrib_rcAdd lid dof m e.1 e.2 i h]
    simp only [totalContrib, List.map_cons, List.sum_cons, Prod.mk.eta]
    ring

/-- A key of the accumulated map comes from the start map or the pairs. -/
theorem keys_accPairs_sub (lid : Nat → Option Nat) :
    ∀ (pairs m : List (Nat × List ℚ)) (k : Nat),
      k ∈ (accPairs m pairs).map Prod.fst →
      k ∈ m.map Prod.fst ∨ k ∈ pairs.map Prod.fst := by
  intro pairs
  induction pairs with
  | nil =>
    intro m k hk
    exact Or.inl hk
  | cons e es ih =>
    intro m k hk
    rcases ih (rcAdd m e.1 e.2) k hk with h1 | h2
    · rcases keys_rcAdd_sub m e.1 e.2 k h1 with h3 | h4
      · exact Or.inl h3
      · right; simp [h4]
    · right; simp [h2]

/-- `comres` only accumulates into `m_rc` and counts: every field the init
round later reads is untouched. -/
theorem comres_fields (s : CGState) (gs : List Nat) (vs : List (List ℚ)) :
    (ConjugateGradients.comres s gs vs).1.m_rc = accPairs s.m_rc (gs.zip vs) ∧
    (ConjugateGradients.comres s gs vs).1.m_r = s.m_r ∧
    (ConjugateGradients.comres s gs vs).1.m_b = s.m_b ∧
    (ConjugateGradients.comres s gs vs).1.m_x = s.m_x ∧
    (ConjugateGradients.comres s gs vs).1.m_lid = s.m_lid ∧
    (ConjugateGradients.comres s gs vs).1.A = s.A ∧
    (ConjugateGradients.comres s gs vs).1.m_normb = s.m_normb := by
  unfold ConjugateGradients.comres
  split <;> exact ⟨rfl, rfl, rfl, rfl, rfl, rfl, rfl⟩

/-- Receiving a whole list of messages accumulates all their pairs and
leaves the local vectors and maps untouched. -/
theorem foldl_comres_fields (msgs : List (List Nat × List (List ℚ))) :
    ∀ (t : CGState),
      (msgs.foldl (fun t m => (ConjugateGradients.comres t m.1 m.2).1) t).m_rc
        = accPairs t.m_rc (msgPairs msgs) ∧
      (msgs.foldl (fun t m => (ConjugateGradients.comres t m.1 m.2).1) t).m_r
        = t.m_r ∧
      (msgs.foldl (fun t m => (ConjugateGradients.comres t m.1 m.2).1) t).m_b
        = t.m_b ∧
      (msgs.foldl (fun t m => (ConjugateGradients.comres t m.1 m.2).1) t).m_lid
        = t.m_lid ∧
      (msgs.foldl (fun t m => (ConjugateGradients.comres t m.1 m.2).1) t).A
        = t.A ∧
      (msgs.foldl (fun t m => (ConjugateGradients.comres t m.1 m.2).1) t).m_normb
        = t.m_normb := by
  induction msgs with
  | nil =>
    intro t
    simp [msgPairs, accPairs]
  | cons m ms ih =>
    intro t
    obtain ⟨i1, i2, i3, i4, i5, i6⟩ := ih (ConjugateGradients.comres t m.1 m.2).1
    obtain ⟨g1, g2, g3, g4, g5, g6, g7⟩ := comres_fields t m.1 m.2
    rw [List.foldl_cons]
    refine ⟨?_, ?_, ?_, ?_, ?_, ?_⟩
    · rw [i1, g1]
      unfold accPairs
      have hmp : msgPairs (m :: ms) = m.1.zip m.2 ++ msgPairs ms := by
        unfold msgPairs
        rw [List.map_cons, List.flatten_cons]
      rw [hmp, List.foldl_append]
    · rw [i2, g2]
    · rw [i3, g3]
    · rw [i4, g5]
    · rw [i5, g6]
    · rw [i6, g7]

/-- `map (· * -1)` pointwise (a missing position reads as zero). -/
theorem getD_map_negOne (l : List ℚ) (i : Nat) :
    (l.map fun t => t * (-1)).getD i 0 = l.getD i 0 * (-1) := by
  by_cases h : i < l.length
  · rw [List.getD_eq_getElem?_getD, List.getElem?_map, List.getElem?_eq_getElem h]
    simp [List.getD_eq_getElem?_getD, List.getElem?_eq_getElem h]
  · rw [List.getD_eq_default _ _ (by simpa using not_lt.mp h),
      List.getD_eq_default _ _ (not_lt.mp h)]
    ring

/-- C5: after the init round completes (own residual contribution, all
`|NodeCommMap|` messages received and accumulated, `(b,b)` reduced into
`normb`), the residual satisfies `r = b − (A·x)_combined`, where
`(A·x)_combined` is the local matvec plus the summed communicated partial
contributions at shared nodes, and the init continuation is invoked with
the square root of the globally reduced `(b,b)`. -/
theorem C5_init (sq : ℚ → ℚ) (s : CGState)
    (msgs : List (List Nat × List (List ℚ))) (bb : ℚ)
    (hrc : s.m_rc = [])
    (hcount : msgs.length = s.m_nodeCommMap.length)
    (hA : (s.A.multFn s.m_x).length = s.m_b.length)
    (hb : ∀ k ∈ (msgPairs msgs).map Prod.fst,
      (s.m_lid k).getD 0 * s.A.Ncomp + s.A.Ncomp ≤ s.m_b.length) :
    (∀ i < s.m_b.length,
      ((initRound sq s msgs bb).1.m_r).getD i 0
        = s.m_b.getD i 0 - ((s.A.multFn s.m_x).getD i 0
            + totalContrib s.m_lid s.A.Ncomp (msgPairs msgs) i)) ∧
    (initRound sq s msgs bb).2 = sq bb := by
  obtain ⟨f1, f2, f3, f4, f5, f6⟩ :=
    foldl_comres_fields msgs (ConjugateGradients.residual s)
  have r1 : (ConjugateGradients.residual s).m_rc = s.m_rc := rfl
  have r2 : (ConjugateGradients.residual s).m_r = s.A.multFn s.m_x := rfl
  have r3 : (ConjugateGradients.residual s).m_b = s.m_b := rfl
  have r4 : (ConjugateGradients.residual s).m_lid = s.m_lid := rfl
  have r5 : (ConjugateGradients.residual s).A = s.A := rfl
  set T := msgs.foldl (fun t m => (ConjugateGradients.comres t m.1 m.2).1)
      (ConjugateGradients.residual s) with hTdef
  have hTr : T.m_r = s.A.multFn s.m_x := f2.trans r2
  have hTb : T.m_b = s.m_b := f3.trans r3
  have hTlid : T.m_lid = s.m_lid := f4.trans r4
  have hTA : T.A = s.A := f5.trans r5
  have hTrc : T.m_rc = accPairs [] (msgPairs msgs) := by
    rw [f1, r1, hrc]
  constructor
  · intro i hi
    have hcore : (ConjugateGradients.initres
          (ConjugateGradients.normb sq T bb)).1.m_r
        = vecAdd ((applyAcc T.m_lid T.A.Ncomp T.m_rc T.m_r).map
            fun t => t * (-1)) T.m_b := rfl
    have hgoal : ((initRound sq s msgs bb).1.m_r).getD i 0
        = ((ConjugateGradients.initres
            (ConjugateGradients.normb sq T bb)).1.m_r).getD i 0 := rfl
    rw [hgoal, hcore, hTr, hTb, hTlid, hTA, hTrc, vecAdd_getD, getD_map_negOne]
    have hi' : i < (s.A.multFn s.m_x).length := by rw [hA]; exact hi
    have hbounds : ∀ p ∈ accPairs [] (msgPairs msgs),
        (s.m_lid p.1).getD 0 * s.A.Ncomp + s.A.Ncomp
          ≤ (s.A.multFn s.m_x).length := by
      intro p hp
      rw [hA]
      rcases keys_accPairs_sub s.m_lid (msgPairs msgs) [] p.1
          (List.mem_map.mpr ⟨p, hp, rfl⟩) with h1 | h2
      · simp at h1
      · exact hb p.1 h2
    rw [applyAcc_getD s.m_lid s.A.Ncomp _ _ i hi' hbounds,
      totalContrib_accPairs s.m_lid s.A.Ncomp i (msgPairs msgs) [] (by simp)]
    have hz : totalContrib s.m_lid s.A.Ncomp [] i = 0 := by
      simp [totalContrib]
    rw [hz]
    ring
  · rfl

/-- C5 witness: the two-unknown state with one received message; both
positions of the final residual and the delivered `‖b‖` value. -/
theorem C5_witness :
    (((initRound id exInit [([0], [[10]])] 4).1.m_r).getD 0 0
      = exInit.m_b.getD 0 0 - ((exInit.A.multFn exInit.m_x).getD 0 0
          + totalContrib exInit.m_lid exInit.A.Ncomp
              (msgPairs [([0], [[10]])]) 0)) ∧
    (((initRound id exInit [([0], [[10]])] 4).1.m_r).getD 1 0
      = exInit.m_b.getD 1 0 - ((exInit.A.multFn exInit.m_x).getD 1 0
          + totalContrib exInit.m_lid exInit.A.Ncomp
              (msgPairs [([0], [[10]])]) 1)) ∧
    (initRound id exInit [([0], [[10]])] 4).2 = id 4 :=
  ⟨(C5_init id exInit [([0], [[10]])] 4 rfl rfl rfl (by decide)).1 0 (by decide),
   (C5_init id exInit [([0], [[10]])] 4 rfl rfl rfl (by decide)).1 1 (by decide),
   (C5_init id exInit [([0], [[10]])] 4 rfl rfl rfl (by decide)).2⟩

/-- `vecAdd` into an empty accumulator entry is the incoming vector. -/
theorem vecAdd_nil (w : List ℚ) : vecAdd [] w = w := by
  apply List.ext_getElem
  · simp [vecAdd]
  · intro i h1 h2
    have h := vecAdd_getD [] w i
    simp only [List.getD_eq_getElem?_getD, List.getElem?_eq_getElem h1,
      List.getElem?_eq_getElem h2, Option.getD_some] at h
    simpa using h

/-- The accumulated value at a key stored in the head entry. -/
theorem accAt_cons_pos (e : Nat × List ℚ) (tail : List (Nat × List ℚ))
    (g : Nat) (h : e.1 = g) : accAt (e :: tail) g = e.2 := by
  unfold accAt
  rw [List.find?_cons_of_pos]
  · rfl
  · simpa using h

/-- The head entry is skipped when its key differs. -/
theorem accAt_cons_neg (e : Nat × List ℚ) (tail : List (Nat × List ℚ))
    (g : Nat) (h : ¬ e.1 = g) : accAt (e :: tail) g = accAt tail g := by
  unfold accAt
  rw [List.find?_cons_of_neg]
  simpa using h

/-- `m_rc[g] += w` sums into the entry at `g` (an absent entry counts as
zero); it never overwrites. -/
theorem accAt_rcAdd_same (m : List (Nat × List ℚ)) (g : Nat) (w : List ℚ)
    (c : Nat) :
    (accAt (rcAdd m g w) g).getD c 0 = (accAt m g).getD c 0 + w.getD c 0 := by
  induction m with
  | nil =>
    have h0 : rcAdd [] g w = [(g, w)] := by
      rw [rcAdd, if_neg (by simp)]
      rfl
    rw [h0, accAt_cons_pos (g, w) [] g rfl]
    simp [accAt]
  | cons e es ih =>
    by_cases he : e.1 = g
    · have hany : ((e :: es).any fun p => p.1 == g) = true := by
        simp [List.any_cons, he]
      rw [rcAdd, if_pos hany, List.map_cons, if_pos (by simpa using he)]
      rw [accAt_cons_pos (e.1, vecAdd e.2 w) _ g he, accAt_cons_pos e es g he]
      exact vecAdd_getD e.2 w c
    · have hbeqf : (e.1 == g) = false := by simpa using he
      rw [rcAdd]
      by_cases hany : (es.any fun p => p.1 == g) = true
      · have hany2 : ((e :: es).any fun p => p.1 == g) = true := by
          rw [List.any_cons, hany, Bool.or_true]
        rw [if_pos hany2, List.map_cons, if_neg (by simp [hbeqf])]
        rw [accAt_cons_neg e _ g he, accAt_cons_neg e es g he]
        have hres : (es.map fun p => if p.1 == g then (p.1, vecAdd p.2 w) else p)
            = rcAdd es g w := by
          rw [rcAdd, if_pos hany]
        rw [hres]
        exact ih
      · have hany2 : ((e :: es).any fun p => p.1 == g) = false := by
          rw [List.any_cons, hbeqf, Bool.false_or]
          exact Bool.eq_false_iff.mpr hany
        rw [if_neg (by simp [hany2]), List.cons_append]
        rw [accAt_cons_neg e _ g he, accAt_cons_neg e es g he]
        have hres : es ++ [(g, w)] = rcAdd es g w := by
          rw [rcAdd, if_neg (by simp [hany])]
        rw [hres]
        exact ih

/-- `m_rc[g] += w` leaves every other key's accumulated value alone. -/
theorem accAt_rcAdd_other (m : List (Nat × List ℚ)) (g g' : Nat) (w : List ℚ)
    (hne : g' ≠ g) :
    accAt (rcAdd m g w) g' = accAt m g' := by
  induction m with
  | nil =>
    have h0 : rcAdd [] g w = [(g, w)] := by
      rw [rcAdd, if_neg (by simp)]
      rfl
    rw [h0, accAt_cons_neg (g, w) [] g' (fun hc => hne hc.symm)]
  | cons e es ih =>
    by_cases hany : ((e :: es).any fun p => p.1 == g) = true
    · rw [rcAdd, if_pos hany, List.map_cons]
      by_cases heg : e.1 = g
      · rw [if_pos (by simpa using heg)]
        have hne' : ¬ e.1 = g' := fun hc => hne (hc ▸ heg)
        rw [accAt_cons_neg (e.1, vecAdd e.2 w) _ g' hne',
          accAt_cons_neg e es g' hne']
        by_cases hany2 : (es.any fun p => p.1 == g) = true
        · have hres : (es.map fun p => if p.1 == g then (p.1, vecAdd p.2 w) else p)
              = rcAdd es g w := by
            rw [rcAdd, if_pos hany2]
          rw [hres]
          exact ih
        · have hmapid : (es.map fun p => if p.1 == g then (p.1, vecAdd p.2 w) else p)
              = es := by
            conv_rhs => rw [← List.map_id es]
            refine List.map_congr_left fun p hp => ?_
            have : (p.1 == g) = false := by
              cases hx : (p.1 == g) with
              | false => rfl
              | true => exact absurd (List.any_eq_true.mpr ⟨p, hp, hx⟩) hany2
            simp [this]
          rw [hmapid]
      · rw [if_neg (by simpa using heg)]
        by_cases hkey : e.1 = g'
        · rw [accAt_cons_pos e _ g' hkey, accAt_cons_pos e es g' hkey]
        · rw [accAt_cons_neg e _ g' hkey, accAt_cons_neg e es g' hkey]
          have hany2 : (es.any fun p => p.1 == g) = true := by
            rw [List.any_cons] at hany
            rcases Bool.or_eq_true_iff.mp hany with h1 | h2
            · exact absurd (by simpa using h1) heg
            · exact h2
          have hres : (es.map fun p => if p.1 == g then (p.1, vecAdd p.2 w) else p)
              = rcAdd es g w := by
            rw [rcAdd, if_pos hany2]
          rw [hres]
          exact ih
    · rw [rcAdd, if_neg (by simpa using hany), List.cons_append]
      by_cases hkey : e.1 = g'
      · rw [accAt_cons_pos e _ g' hkey, accAt_cons_pos e es g' hkey]
      · rw [accAt_cons_neg e _ g' hkey, accAt_cons_neg e es g' hkey]
        have hany2 : (es.any fun p => p.1 == g) = false := by
          rw [List.any_cons] at hany
          cases hx : (es.any fun p => p.1 == g) with
          | false => rfl
          | true => exact absurd (by rw [hx, Bool.or_true]) hany
        have hres : es ++ [(g, w)] = rcAdd es g w := by
          rw [rcAdd, if_neg (by simp [hany2])]
        rw [hres]
        exact ih

/-- C8: in every exchange round, incoming contributions are accumulated by
summation (never overwrite) into the per-global-id accumulator; a `comres`
(`comq`) message leaves `m_r` (`m_q`) untouched — the accumulated
corrections reach the local vector only in `initres` (`q()`), which the
control flow runs after exactly `|NodeCommMap|` messages; the round
completes exactly when the receive counter reaches `|NodeCommMap|` and the
counter then resets to 0; and the residual round (`m_rc`, `m_nr`) and the
`q` round (`m_qc`, `m_nq`) use disjoint accumulators and counters, never
merged. -/
theorem C8_exchange (s : CGState) (gs : List Nat) (vs : List (List ℚ))
    (m : List (Nat × List ℚ)) (g g' : Nat) (w : List ℚ) (c : Nat) :
    ((accAt (rcAdd m g w) g).getD c 0 = (accAt m g).getD c 0 + w.getD c 0) ∧
    (g' ≠ g → accAt (rcAdd m g w) g' = accAt m g') ∧
    ((ConjugateGradients.comres s gs vs).1.m_rc = accPairs s.m_rc (gs.zip vs)) ∧
    ((ConjugateGradients.comres s gs vs).1.m_r = s.m_r) ∧
    ((ConjugateGradients.comres s gs vs).2 = true
      ↔ s.m_nr + 1 = s.m_nodeCommMap.length) ∧
    ((ConjugateGradients.comres s gs vs).2 = true
      → (ConjugateGradients.comres s gs vs).1.m_nr = 0) ∧
    ((ConjugateGradients.comres s gs vs).2 = false
      → (ConjugateGradients.comres s gs vs).1.m_nr = s.m_nr + 1) ∧
    ((ConjugateGradients.comres s gs vs).1.m_qc = s.m_qc
      ∧ (ConjugateGradients.comres s gs vs).1.m_nq = s.m_nq) ∧
    ((ConjugateGradients.comq s gs vs).1.m_rc = s.m_rc
      ∧ (ConjugateGradients.comq s gs vs).1.m_nr = s.m_nr) ∧
    ((ConjugateGradients.comq s gs vs).1.m_qc = accPairs s.m_qc (gs.zip vs)) ∧
    ((ConjugateGradients.comq s gs vs).1.m_q = s.m_q) ∧
    ((ConjugateGradients.comq s gs vs).2 = true
      ↔ s.m_nq + 1 = s.m_nodeCommMap.length) ∧
    ((ConjugateGradients.comq s gs vs).2 = true
      → (ConjugateGradients.comq s gs vs).1.m_nq = 0) := by
  refine ⟨accAt_rcAdd_same m g w c, fun hne => accAt_rcAdd_other m g g' w hne,
    ?_, ?_, ?_, ?_, ?_, ?_, ?_, ?_, ?_, ?_, ?_⟩ <;>
    simp only [ConjugateGradients.comres, ConjugateGradients.comq] <;>
    split <;>
    simp_all

/-- C8 witness: concrete accumulation and round completion on the
two-unknown state (`|NodeCommMap| = 1`, counters at zero). -/
theorem C8_witness :
    ((accAt (rcAdd [(5, [1])] 5 [2]) 5).getD 0 0
      = (accAt [(5, [1])] 5).getD 0 0 + [(2 : ℚ)].getD 0 0) ∧
    (accAt (rcAdd [(5, [1])] 5 [2]) 7 = accAt [(5, [1])] 7) ∧
    ((ConjugateGradients.comres exInit [0] [[10]]).2 = true
      ↔ exInit.m_nr + 1 = exInit.m_nodeCommMap.length) ∧
    ((ConjugateGradients.comres exInit [0] [[10]]).1.m_nr = 0) ∧
    ((ConjugateGradients.comres exInit [0] [[10]]).1.m_qc = exInit.m_qc) :=
  ⟨(C8_exchange exInit [0] [[10]] [(5, [1])] 5 7 [2] 0).1,
   (C8_exchange exInit [0] [[10]] [(5, [1])] 5 7 [2] 0).2.1 (by decide),
   (C8_exchange exInit [0] [[10]] [(5, [1])] 5 7 [2] 0).2.2.2.2.1,
   (C8_exchange exInit [0] [[10]] [(5, [1])] 5 7 [2] 0).2.2.2.2.2.1
     (((C8_exchange exInit [0] [[10]] [(5, [1])] 5 7 [2] 0).2.2.2.2.1).mpr rfl),
   (C8_exchange exInit [0] [[10]] [(5, [1])] 5 7 [2] 0).2.2.2.2.2.2.2.1.1⟩

/-- C2: counterexample.  In `ex4` all four partitions hold global id 7 and
every listing is symmetric (id 7 is listed in P's map under Q iff it is
listed in Q's map under P), yet partitions 1 and 3 both have `slave` false
for id 7: two partitions count it, not exactly one. -/
theorem C2_counterexample :
    (∀ (g : Nat), ∀ p ∈ ex4, ∀ q ∈ ex4,
      listedUnder p.2 q.1 g = listedUnder q.2 p.1 g) ∧
    (∀ p ∈ ex4, holdsIn p.2 7 = true) ∧
    (ex4.filter fun p => holdsIn p.2 7 && !(slave p.2 7 p.1)).length = 2 := by
  refine ⟨?_, by decide, by decide⟩
  intro g
  by_cases hg : g = 7
  · subst hg
    decide
  · intro p hp q hq
    have hz : ∀ (r : Int × NodeCommMap), r ∈ ex4 → ∀ (c : Int),
        listedUnder r.2 c g = false := by
      intro r hr c
      fin_cases hr <;> simp [listedUnder, List.contains, List.elem, hg]
    rw [hz p hp q.1, hz q hq p.1]

/-- On an induced comm map, the code's slave test says exactly: some other
holder of the id has a higher chare id. -/
theorem slave_inducedMap (cfg : Partitioning) (c : Int) (gs : List Nat)
    (g : Nat) :
    slave (inducedMap cfg c gs) g c = true
      ↔ ∃ p ∈ cfg, c < p.1 ∧ g ∈ gs ∧ g ∈ p.2 := by
  rw [slave_iff]
  constructor
  · rintro ⟨s, hs, hlt, hmem⟩
    unfold inducedMap at hs
    obtain ⟨p, hp, hpe⟩ := List.mem_map.mp hs
    have hpf := List.mem_filter.mp hp
    have hs1 : s.1 = p.1 := by rw [← hpe]
    have hs2 : s.2 = gs.filter fun g => p.2.contains g := by rw [← hpe]
    rw [hs2] at hmem
    have hmf := List.mem_filter.mp hmem
    refine ⟨p, hpf.1, hs1 ▸ hlt, hmf.1, ?_⟩
    have := hmf.2
    simpa [List.contains, List.elem_iff] using this
  · rintro ⟨p, hp, hlt, hgs, hgp⟩
    refine ⟨(p.1, gs.filter fun g => p.2.contains g), ?_, hlt, ?_⟩
    · unfold inducedMap
      refine List.mem_map.mpr ⟨p, ?_, rfl⟩
      refine List.mem_filter.mpr ⟨hp, ?_⟩
      simp only [bne_iff_ne, ne_eq, decide_eq_true_eq]
      intro hc
      rw [hc] at hlt
      exact lt_irrefl c hlt
    · refine List.mem_filter.mpr ⟨hgs, ?_⟩
      simpa [List.contains, List.elem_iff] using hgp

/-- With complete sharing and distinct chare ids, exactly one holder of a
global id — the one with the highest chare id — escapes the slave test. -/
theorem unique_counter (cfg : Partitioning)
    (hids : (cfg.map Prod.fst).Nodup) (g : Nat)
    (hg : ∃ p ∈ cfg, g ∈ p.2) :
    ∃! p, p ∈ cfg ∧ g ∈ p.2
      ∧ slave (inducedMap cfg p.1 p.2) g p.1 = false := by
  classical
  set hs := cfg.filter (fun p => p.2.contains g) with hhs
  have hmemhs : ∀ p, p ∈ hs ↔ p ∈ cfg ∧ g ∈ p.2 := by
    intro p
    rw [hhs, List.mem_filter]
    constructor
    · rintro ⟨h1, h2⟩
      exact ⟨h1, by simpa [List.contains, List.elem_iff] using h2⟩
    · rintro ⟨h1, h2⟩
      exact ⟨h1, by simpa [List.contains, List.elem_iff] using h2⟩
  have hsne : hs ≠ [] := by
    obtain ⟨p, hp, hgp⟩ := hg
    intro hnil
    have hmem : p ∈ hs := (hmemhs p).mpr ⟨hp, hgp⟩
    rw [hnil] at hmem
    cases hmem
  obtain ⟨pm, hpm⟩ : ∃ pm, pm ∈ List.argmax Prod.fst hs := by
    cases hopt : List.argmax Prod.fst hs with
    | none => exact absurd (List.argmax_eq_none.mp hopt) hsne
    | some m => exact ⟨m, by simp [hopt]⟩
  have hpmhs : pm ∈ hs := List.argmax_mem hpm
  have hpmcfg : pm ∈ cfg ∧ g ∈ pm.2 := (hmemhs pm).mp hpmhs
  have hnotslave : slave (inducedMap cfg pm.1 pm.2) g pm.1 = false := by
    rw [Bool.eq_false_iff]
    intro hsl
    obtain ⟨q, hq, hlt, hggs, hgq⟩ := (slave_inducedMap cfg pm.1 pm.2 g).mp hsl
    have hqhs : q ∈ hs := (hmemhs q).mpr ⟨hq, hgq⟩
    exact List.not_lt_of_mem_argmax hqhs hpm hlt
  refine ⟨pm, ⟨hpmcfg.1, hpmcfg.2, hnotslave⟩, ?_⟩
  rintro q ⟨hqc, hqg, hqns⟩
  by_contra hne
  have hids' : q.1 ≠ pm.1 := fun he =>
    hne (List.inj_on_of_nodup_map hids hqc hpmcfg.1 he)
  rcases lt_or_gt_of_ne hids' with hlt | hgt
  · have hsl : slave (inducedMap cfg q.1 q.2) g q.1 = true :=
      (slave_inducedMap cfg q.1 q.2 g).mpr ⟨pm, hpmcfg.1, hlt, hqg, hpmcfg.2⟩
    rw [hqns] at hsl
    cases hsl
  · have hsl : slave (inducedMap cfg pm.1 pm.2) g pm.1 = true :=
      (slave_inducedMap cfg pm.1 pm.2 g).mpr ⟨q, hqc, hgt, hpmcfg.2, hqg⟩
    rw [hnotslave] at hsl
    cases hsl

/-- Reading a list through its index range composes with any function. -/
theorem range_map_getD_comp (gs : List Nat) (h : Nat → ℚ) :
    ((List.range gs.length).map fun i => h (gs.getD i 0)) = gs.map h := by
  apply List.ext_getElem (by simp)
  intro i h1 h2
  simp only [List.getElem_map, List.getElem_range]
  have hi : i < gs.length := by simpa using h2
  rw [List.getD_eq_getElem?_getD, List.getElem?_eq_getElem hi]
  rfl

/-- The constant-one vector reads 1 at every in-range index. -/
theorem getD_ones (n i : Nat) (h : i < n) : (ones n).getD i 0 = 1 := by
  unfold ones
  rw [List.getD_eq_getElem?_getD, List.getElem?_eq_getElem (by simpa using h)]
  simp

/-- Summing indicator values counts the filtered elements. -/
theorem sum_map_ite_one (gs : List Nat) (P : Nat → Bool) :
    (gs.map fun g => if P g then (1 : ℚ) else 0).sum
      = ((gs.filter P).length : ℚ) := by
  induction gs with
  | nil => simp
  | cons a l ih =>
    by_cases h : P a = true <;>
      simp [h, ih, List.filter_cons] <;>
      push_cast <;>
      ring

/-- The dot partial of the constant vector `v = 1` against itself counts
the local indices that survive the slave test. -/
theorem dot_ones_count (map : NodeCommMap) (gs : List Nat) (c : Int) :
    dot map gs c (ones gs.length) (ones gs.length)
      = (((gs.filter fun g => !(slave map g c)).length : ℕ) : ℚ) := by
  rw [dot, foldl_guard_add, zero_add]
  have hlen : (ones gs.length).length = gs.length := by simp [ones]
  rw [hlen]
  have hmap : ((List.range gs.length).map fun i =>
      if !(slave map (gs.getD i 0) c) then
        (ones gs.length).getD i 0 * (ones gs.length).getD i 0 else 0)
      = (List.range gs.length).map fun i =>
        if !(slave map (gs.getD i 0) c) then (1 : ℚ) else 0 := by
    refine List.map_congr_left fun i hi => ?_
    have hi' : i < gs.length := by simpa using hi
    rw [getD_ones _ _ hi']
    simp
  rw [hmap,
    range_map_getD_comp gs fun g => if !(slave map g c) then (1 : ℚ) else 0,
    sum_map_ite_one gs fun g => !(slave map g c)]

/-- A duplicate-free list whose members all equal `a`, containing `a`, is
the singleton `[a]`. -/
theorem nodup_all_eq_singleton {α : Type} (l : List α) (a : α) (hn : l.Nodup)
    (ha : a ∈ l) (hall : ∀ b ∈ l, b = a) : l = [a] := by
  cases l with
  | nil => cases ha
  | cons x xs =>
    have hx : x = a := hall x (List.mem_cons_self x xs)
    subst hx
    have hxs : xs = [] := by
      by_contra hne
      obtain ⟨y, hy⟩ := List.exists_mem_of_ne_nil xs hne
      have hyx : y = x := hall y (List.mem_cons_of_mem x hy)
      exact (List.nodup_cons.mp hn).1 (hyx ▸ hy)
    rw [hxs]

/-- A predicate satisfied by exactly one element of a duplicate-free
configuration filters down to one element. -/
theorem filter_unique_length (cfg : Partitioning)
    (hids : (cfg.map Prod.fst).Nodup) (pred : (Int × List Nat) → Bool)
    (h : ∃! p, p ∈ cfg ∧ pred p = true) :
    (cfg.filter pred).length = 1 := by
  obtain ⟨p0, ⟨hp0c, hp0p⟩, huniq⟩ := h
  have hcfgnd : cfg.Nodup := List.Nodup.of_map Prod.fst hids
  have hfnd : (cfg.filter pred).Nodup := List.Nodup.filter pred hcfgnd
  have hmem : p0 ∈ cfg.filter pred := List.mem_filter.mpr ⟨hp0c, hp0p⟩
  have hall : ∀ q ∈ cfg.filter pred, q = p0 := by
    intro q hq
    have hq' := List.mem_filter.mp hq
    exact huniq q ⟨hq'.1, hq'.2⟩
  rw [nodup_all_eq_singleton (cfg.filter pred) p0 hfnd hmem hall]
  rfl

/-- Double counting: summing per-partition filtered-gid counts equals
summing, over all global ids, the number of partitions that keep them. -/
theorem sum_filter_length_swap (S : Finset Nat)
    (Q : (Int × List Nat) → Nat → Bool) :
    ∀ (l : Partitioning),
      (∀ p ∈ l, p.2.Nodup) →
      (∀ p ∈ l, ∀ g ∈ p.2, g ∈ S) →
      (l.map fun p => (p.2.filter (Q p)).length).sum
        = ∑ g in S, (l.filter fun p => p.2.contains g && Q p g).length := by
  intro l
  induction l with
  | nil =>
    intro _ _
    simp
  | cons p ps ih =>
    intro hnd hsub
    rw [List.map_cons, List.sum_cons,
      ih (fun q hq => hnd q (List.mem_cons_of_mem p hq))
        (fun q hq => hsub q (List.mem_cons_of_mem p hq))]
    have hsplit : ∀ g ∈ S, ((p :: ps).filter fun r => r.2.contains g && Q r g).length
        = ((if p.2.contains g && Q p g then 1 else 0)
            + (ps.filter fun r => r.2.contains g && Q r g).length) := by
      intro g _
      rw [List.filter_cons]
      by_cases hc : (p.2.contains g && Q p g) = true
      · rw [if_pos hc, if_pos hc, List.length_cons]
        omega
      · rw [if_neg hc, if_neg hc]
        omega
    rw [Finset.sum_congr rfl hsplit, Finset.sum_add_distrib]
    have hhead : (∑ g ∈ S, if p.2.contains g && Q p g then 1 else 0)
        = (p.2.filter (Q p)).length := by
      rw [Finset.sum_boole]
      push_cast
      have hfin : S.filter (fun g => (p.2.contains g && Q p g) = true)
          = (p.2.filter (Q p)).toFinset := by
        ext g
        simp only [Finset.mem_filter, List.mem_toFinset, List.mem_filter,
          Bool.and_eq_true, List.contains, List.elem_iff]
        constructor
        · rintro ⟨hgS, hgp, hQ⟩
          exact ⟨hgp, hQ⟩
        · rintro ⟨hgp, hQ⟩
          exact ⟨hsub p (List.mem_cons_self p ps) g hgp, hgp, hQ⟩
      rw [hfin, List.card_toFinset,
        List.Nodup.dedup (List.Nodup.filter (Q p) (hnd p (List.mem_cons_self p ps)))]
    rw [hhead]

/-- C2 (amended): for comm maps induced by complete sharing (every two
partitions holding an id list it with each other — symmetry alone does not
suffice), with pairwise-distinct chare ids and duplicate-free gid lists,
every held global id has exactly one partition with `slave` false (the
highest-id holder), and summing the per-partition dot partials of the
constant vector `v = 1` yields exactly the number of distinct global
unknowns — each one counted once, however many partitions hold it. -/
theorem C2_amended (cfg : Partitioning)
    (hids : (cfg.map Prod.fst).Nodup)
    (hgids : ∀ p ∈ cfg, p.2.Nodup) :
    (∀ g : Nat, (∃ p ∈ cfg, g ∈ p.2) →
      ∃! p, p ∈ cfg ∧ g ∈ p.2
        ∧ slave (inducedMap cfg p.1 p.2) g p.1 = false) ∧
    ((cfg.map fun p =>
        dot (inducedMap cfg p.1 p.2) p.2 p.1 (ones p.2.length)
          (ones p.2.length)).sum
      = ((globalIds cfg).length : ℚ)) := by
  refine ⟨fun g => unique_counter cfg hids g, ?_⟩
  have hsub : ∀ p ∈ cfg, ∀ g ∈ p.2, g ∈ ((cfg.map Prod.snd).flatten).toFinset := by
    intro p hp g hg
    rw [List.mem_toFinset]
    exact List.mem_flatten.mpr ⟨p.2, List.mem_map.mpr ⟨p, hp, rfl⟩, hg⟩
  have hdots : (cfg.map fun p =>
      dot (inducedMap cfg p.1 p.2) p.2 p.1 (ones p.2.length) (ones p.2.length))
      = cfg.map fun p =>
        ((((p.2.filter fun g =>
            !(slave (inducedMap cfg p.1 p.2) g p.1)).length : ℕ)) : ℚ) := by
    refine List.map_congr_left fun p hp => ?_
    exact dot_ones_count _ _ _
  rw [hdots]
  have hcast : (cfg.map fun p =>
      ((((p.2.filter fun g =>
          !(slave (inducedMap cfg p.1 p.2) g p.1)).length : ℕ)) : ℚ)).sum
      = (((cfg.map fun p =>
          (p.2.filter fun g =>
            !(slave (inducedMap cfg p.1 p.2) g p.1)).length).sum : ℕ) : ℚ) := by
    rw [Nat.cast_list_sum, List.map_map]
    rfl
  rw [hcast]
  have hnat : (cfg.map fun p =>
      (p.2.filter fun g => !(slave (inducedMap cfg p.1 p.2) g p.1)).length).sum
      = (globalIds cfg).length := by
    rw [sum_filter_length_swap ((cfg.map Prod.snd).flatten).toFinset
      (fun p g => !(slave (inducedMap cfg p.1 p.2) g p.1)) cfg hgids hsub]
    have hone : ∀ g ∈ ((cfg.map Prod.snd).flatten).toFinset,
        (cfg.filter fun p =>
          p.2.contains g && !(slave (inducedMap cfg p.1 p.2) g p.1)).length
          = 1 := by
      intro g hgS
      apply filter_unique_length cfg hids
      have hex : ∃ p ∈ cfg, g ∈ p.2 := by
        rw [List.mem_toFinset] at hgS
        obtain ⟨l2, hl2, hgl⟩ := List.mem_flatten.mp hgS
        obtain ⟨p, hp, hpe⟩ := List.mem_map.mp hl2
        exact ⟨p, hp, hpe ▸ hgl⟩
      obtain ⟨p0, hp0, huq⟩ := unique_counter cfg hids g hex
      refine ⟨p0, ⟨hp0.1, ?_⟩, ?_⟩
      · simp only [Bool.and_eq_true, Bool.not_eq_true', List.contains,
          List.elem_iff]
        exact ⟨hp0.2.1, hp0.2.2⟩
      · intro q hq
        apply huq
        obtain ⟨hqc, hqp⟩ := hq
        simp only [Bool.and_eq_true, Bool.not_eq_true', List.contains,
          List.elem_iff] at hqp
        exact ⟨hqc, hqp.1, hqp.2⟩
    rw [Finset.sum_congr rfl hone, Finset.sum_const, smul_eq_mul, mul_one,
      List.card_toFinset]
    rfl
  rw [hnat]

/-- C2 witness: the two-partition configuration sharing id 1 — a unique
counter for the shared id, and the `v = 1` reduction equal to the distinct
unknown count. -/
theorem C2_witness :
    (∃! p, p ∈ cfg2 ∧ 1 ∈ p.2
      ∧ slave (inducedMap cfg2 p.1 p.2) 1 p.1 = false) ∧
    ((cfg2.map fun p =>
        dot (inducedMap cfg2 p.1 p.2) p.2 p.1 (ones p.2.length)
          (ones p.2.length)).sum
      = ((globalIds cfg2).length : ℚ)) :=
  ⟨(C2_amended cfg2 (by decide) (by decide)).1 1
      ⟨(0, [0, 1]), by decide, by decide⟩,
   (C2_amended cfg2 (by decide) (by decide)).2⟩
